import Mathlib

/-!
Verification of the `monaco_assets` asset-provisioning module.

The module downloads a pinned Monaco editor tarball into a per-platform
cache directory, verifies its SHA-1 digest, extracts it and returns the
path of the extracted `package` directory.

We shallowly embed the module over an explicit filesystem model:
a filesystem is an association list from paths (lists of segments) to
nodes (directories, regular files with byte contents, or special files).
The network is modelled as an input parameter: either a transport error
or the archive that the GET request returned (its raw bytes together
with its parsed tar members).  All operations are executable.
-/

set_option autoImplicit false

namespace MonacoAssets

/-- A filesystem path, as a list of segments from the root. -/
abbrev Path := List String

/-- A filesystem node: a directory, a regular file with its byte content,
or a special node (device/fifo, as can be created by tar extraction). -/
inductive Node where
  | dir : Node
  | file : List Nat → Node
  | special : Node
  deriving DecidableEq, Repr

/-- A filesystem: an association list from paths to nodes. -/
abbrev FS := List (Path × Node)

/-- Look up the node stored at path `p`. -/
def lookupFS (p : Path) : FS → Option Node
  | [] => none
  | (q, n) :: fs => if q = p then some n else lookupFS p fs

/-- Remove the entry at path `p` (models `unlink`). -/
def removeFS (p : Path) : FS → FS
  | [] => []
  | (q, n) :: fs => if q = p then removeFS p fs else (q, n) :: removeFS p fs

/-- Insert or overwrite the entry at path `p`. -/
def insertFS (p : Path) (n : Node) (fs : FS) : FS :=
  (p, n) :: removeFS p fs

/-- Does a node exist at path `p`? (models `Path.exists`). -/
def existsPath (p : Path) (fs : FS) : Bool :=
  (lookupFS p fs).isSome

/-- Is the node at `p` a regular file? -/
def isFileAt (p : Path) (fs : FS) : Bool :=
  match lookupFS p fs with
  | some (.file _) => true
  | _ => false

/-- Boolean test that `a` is a leading run of `b`. -/
def pfxOf {α : Type} [DecidableEq α] : List α → List α → Bool
  | [], _ => true
  | _ :: _, [] => false
  | a :: as, b :: bs => a = b && pfxOf as bs

/-- Boolean test that `needle` occurs contiguously inside `hay`. -/
def occursIn {α : Type} [DecidableEq α] (needle : List α) : List α → Bool
  | [] => needle.isEmpty
  | a :: hay => pfxOf needle (a :: hay) || occursIn needle hay

/-- All leading runs of segments of a path, shortest first
(so `initsOf p` lists exactly the `q` with `pfxOf q p = true`). -/
def initsOf : Path → List Path
  | [] => [[]]
  | a :: as => [] :: (initsOf as).map (a :: ·)

/-- Does the directory `p` contain at least one entry?
(models `any(p.iterdir())`: some entry lies strictly below `p`). -/
def nonEmptyDir (p : Path) (fs : FS) : Bool :=
  fs.any (fun e => pfxOf p e.1 && !(e.1 = p : Bool))

/-- Remove the subtree rooted at `a` (models `shutil.rmtree`). -/
def rmtreeFS (a : Path) : FS → FS
  | [] => []
  | (q, n) :: fs => if pfxOf a q then rmtreeFS a fs else (q, n) :: rmtreeFS a fs

/-- Errors the embedded module can raise. -/
inductive Err where
  | notADirectory : Path → Err
  | fileExists : Path → Err
  | network : String → Err
  | filterError : String → Err
  | valueError : String → Err
  | osError : String → Err
  | runtimeError : Err → Err
  deriving DecidableEq, Repr

instance exceptDecEq {ε α : Type} [DecidableEq ε] [DecidableEq α] :
    DecidableEq (Except ε α) := fun x y =>
  match x, y with
  | .ok a, .ok b =>
    decidable_of_iff (a = b) ⟨by rintro rfl; rfl, fun h => by injection h⟩
  | .error a, .error b =>
    decidable_of_iff (a = b) ⟨by rintro rfl; rfl, fun h => by injection h⟩
  | .ok _, .error _ => isFalse (fun h => by injection h)
  | .error _, .ok _ => isFalse (fun h => by injection h)

/-- Render a path the way the Python `Path` renders in an f-string. -/
def pathToString (p : Path) : String :=
  String.intercalate "/" p

/-- The message of an error, as Python's `str(e)` would render it. -/
def errStr : Err → String
  | .notADirectory p => "Not a directory: " ++ pathToString p
  | .fileExists p => "File exists: " ++ pathToString p
  | .network m => m
  | .filterError m => m
  | .valueError m => m
  | .osError m => m
  | .runtimeError e => "Failed to download Monaco Editor assets: " ++ errStr e

/-- Create the directory `q` if absent; leave files/dirs already there alone.
Auxiliary step of `mkdirParents`. -/
def addDir (fs : FS) (q : Path) : FS :=
  if q = [] then fs
  else if (lookupFS q fs).isSome then fs
  else insertFS q .dir fs

/-- Create every directory of the list that is absent. -/
def addDirs (l : List Path) (fs : FS) : FS :=
  l.foldl addDir fs

/-- Model of `Path.mkdir(parents=True, exist_ok=True)`: fails when a
leading run of the path is an existing regular file, otherwise creates
every missing ancestor directory and the directory itself. -/
def mkdirParents (p : Path) (fs : FS) : Except Err FS :=
  if (initsOf p).any (fun q => isFileAt q fs) then
    .error (.fileExists p)
  else
    .ok (addDirs (initsOf p) fs)

/-- The filesystem is parent-closed: every ancestor of a stored path is a
stored directory. -/
def WF (fs : FS) : Prop :=
  ∀ e ∈ fs, ∀ q ∈ initsOf e.1, q ≠ e.1 → q ≠ [] → lookupFS q fs = some .dir

instance (fs : FS) : Decidable (WF fs) := by
  unfold WF; infer_instance

/-! ## SHA-1

`hashlib.sha1` as a pure function over byte lists.  The incremental
hash object is modelled functionally: feeding chunks `c₁, …, cₙ` to
`update` and reading `hexdigest()` equals `sha1Hex (c₁ ++ ⋯ ++ cₙ)`. -/

/-- Truncate to a 32-bit word. -/
def w32 (x : Nat) : Nat := x % 4294967296

/-- Rotate a 32-bit word left by `s` bits. -/
def rotl32 (s x : Nat) : Nat := w32 (x <<< s) ||| (w32 x >>> (32 - s))

/-- Chunking worker: split the list into chunks of `n` elements (the
last one may be shorter), spending one unit of fuel per chunk. -/
def chunksGo {α : Type} (n : Nat) : Nat → List α → List (List α)
  | _, [] => []
  | 0, l => [l]
  | fuel + 1, a :: l => (a :: l).take n :: chunksGo n fuel ((a :: l).drop n)

/-- Split a list into chunks of `n` elements (the last one may be
shorter).  The list's length is always enough fuel when `n ≠ 0`. -/
def chunksOf {α : Type} (n : Nat) (l : List α) : List (List α) :=
  chunksGo n l.length l

/-- The SHA-1 round constants. -/
def sha1K (i : Nat) : Nat :=
  if i < 20 then 1518500249
  else if i < 40 then 1859775393
  else if i < 60 then 2400959708
  else 3395469782

/-- The SHA-1 round boolean function. -/
def sha1F (i b c d : Nat) : Nat :=
  if i < 20 then (b &&& c) ||| ((b ^^^ 4294967295) &&& d)
  else if i < 40 then b ^^^ c ^^^ d
  else if i < 60 then (b &&& c) ||| (b &&& d) ||| (c &&& d)
  else b ^^^ c ^^^ d

/-- The five-word SHA-1 state. -/
structure H5 where
  a : Nat
  b : Nat
  c : Nat
  d : Nat
  e : Nat
  deriving DecidableEq, Repr

/-- Extend the 16 block words to 80 schedule words.  The accumulator
holds the words produced so far, most recent first. -/
def sha1Extend : Nat → List Nat → List Nat
  | 0, ws => ws
  | k + 1, ws =>
    let x := ws.getD 2 0 ^^^ ws.getD 7 0 ^^^ ws.getD 13 0 ^^^ ws.getD 15 0
    sha1Extend k (rotl32 1 x :: ws)

/-- The 80 SHA-1 rounds, starting at round index `i`. -/
def sha1Rounds : Nat → List Nat → H5 → H5
  | _, [], h => h
  | i, w :: ws, h =>
    let t := w32 (rotl32 5 h.a + sha1F i h.b h.c h.d + h.e + sha1K i + w)
    sha1Rounds (i + 1) ws ⟨t, h.a, rotl32 30 h.b, h.c, h.d⟩

/-- Compress one 64-byte block into the running state. -/
def sha1Compress (h : H5) (block : List Nat) : H5 :=
  let ws0 := (chunksOf 4 block).map (fun c => c.foldl (fun acc b => acc * 256 + b % 256) 0)
  let ws := (sha1Extend 64 ws0.reverse).reverse
  let r := sha1Rounds 0 ws h
  ⟨w32 (h.a + r.a), w32 (h.b + r.b), w32 (h.c + r.c), w32 (h.d + r.d), w32 (h.e + r.e)⟩

/-- A 64-bit big-endian byte encoding. -/
def be8 (x : Nat) : List Nat :=
  [x >>> 56, x >>> 48, x >>> 40, x >>> 32, x >>> 24, x >>> 16, x >>> 8, x].map (· % 256)

/-- SHA-1 padding: a `0x80` byte, zeros up to 56 mod 64, and the
big-endian 64-bit bit length. -/
def sha1Pad (msg : List Nat) : List Nat :=
  msg ++ 128 :: List.replicate ((119 - msg.length % 64) % 64) 0 ++ be8 (8 * msg.length)

/-- The SHA-1 initial state. -/
def sha1Init : H5 := ⟨1732584193, 4023233417, 2562383102, 271733878, 3285377520⟩

/-- The SHA-1 state after absorbing a whole message. -/
def sha1Words (msg : List Nat) : H5 :=
  (chunksOf 64 (sha1Pad msg)).foldl sha1Compress sha1Init

/-- A 32-bit word as 8 lowercase hex characters. -/
def hexWord (x : Nat) : List Char :=
  let s := Nat.toDigits 16 (w32 x)
  List.replicate (8 - s.length) '0' ++ s

/-- The lowercase hex SHA-1 digest of a byte list
(`hashlib.sha1(msg).hexdigest()`). -/
def sha1Hex (msg : List Nat) : String :=
  let h := sha1Words msg
  String.mk (hexWord h.a ++ hexWord h.b ++ hexWord h.c ++ hexWord h.d ++ hexWord h.e)

/-- The file-read loop `iter(lambda: f.read(4096), b"")`: successive
4096-byte chunks of the file content. -/
def readChunks (content : List Nat) : List (List Nat) :=
  chunksOf 4096 content

/-- `_verify_file_hash`: stream the file in 4096-byte chunks through the
hash accumulator (modelled as the list of bytes absorbed so far) and
compare the hex digest with the expected one. -/
def _verify_file_hash (content : List Nat) (expected_sha1 : String) : Bool :=
  let absorbed := (readChunks content).foldl (fun acc chunk => acc ++ chunk) ([] : List Nat)
  sha1Hex absorbed == expected_sha1

/-! ## Tar extraction

`tarfile` members and `TarFile.extract`, with and without the
`filter="data"` argument (the source feature-detects the `filter`
parameter and passes `filter="data"` only when it is supported). -/

/-- The kind of a tar member. -/
inductive MKind where
  | file : List Nat → MKind
  | dir : MKind
  | special : MKind
  deriving DecidableEq, Repr

/-- One tar archive member: whether its stored name is absolute, its
name segments (which may contain `..` or `.`), and its kind. -/
structure TarMember where
  isAbs : Bool
  segs : List String
  kind : MKind
  deriving DecidableEq, Repr

/-- Resolve `.` and `..` segments the way the OS resolves them when the
path is written to: `..` pops the last resolved segment (staying at the
root when there is none). -/
def resolveDots (p : Path) : Path :=
  p.foldl (fun acc s => if s = ".." then acc.dropLast else if s = "." then acc else acc ++ [s]) []

/-- The path a member is written to: `os.path.join(dest, member.name)`
as the OS resolves it (an absolute stored name ignores `dest`). -/
def memberTarget (dest : Path) (m : TarMember) : Path :=
  if m.isAbs then resolveDots m.segs else resolveDots (dest ++ m.segs)

/-- The `filter="data"` member check: reject absolute names, names that
resolve outside the destination directory, and special/device members. -/
def dataFilterOk (dest : Path) (m : TarMember) : Bool :=
  !m.isAbs && pfxOf dest (resolveDots (dest ++ m.segs)) &&
    (match m.kind with
     | .special => false
     | _ => true)

/-- Write one tar member at its target path: regular files and device
nodes are stored, directories are created if absent. -/
def writeNode (target : Path) (k : MKind) (fs1 : FS) : FS :=
  match k with
  | .file c => insertFS target (.file c) fs1
  | .dir => addDir fs1 target
  | .special => insertFS target .special fs1

/-- `TarFile.extract` of a single member: create the missing ancestor
directories of the target, then write the member there. -/
def extractMember (dest : Path) (m : TarMember) (fs : FS) : Except Err FS :=
  match mkdirParents (memberTarget dest m).dropLast fs with
  | .error e => .error e
  | .ok fs1 => .ok (writeNode (memberTarget dest m) m.kind fs1)

/-- The member loop of `_extract_tgz`: extract each member in order;
when the backend supports the `filter` parameter each member passes the
`data` filter first, otherwise it is extracted with no validation.
Returns the first error (if any) together with the filesystem reached. -/
def extractLoop (supportsFilter : Bool) (dest : Path) :
    List TarMember → FS → Option Err × FS
  | [], fs => (none, fs)
  | m :: ms, fs =>
    if supportsFilter && !dataFilterOk dest m then
      (some (.filterError ("filtered member: " ++ pathToString m.segs)), fs)
    else
      match extractMember dest m fs with
      | .error e => (some e, fs)
      | .ok fs1 => extractLoop supportsFilter dest ms fs1

/-- `_extract_tgz`: extract every member of the archive into the
directory containing the tgz file. -/
def _extract_tgz (supportsFilter : Bool) (members : List TarMember)
    (tgz : Path) (fs : FS) : Option Err × FS :=
  extractLoop supportsFilter tgz.dropLast members fs

/-! ## The module operations -/

/-- `VERSION`: the pinned Monaco editor version. -/
def VERSION : String := "0.54.0"

/-- `EXPECTED_SHA1`: the pinned digest of the release tarball. -/
def EXPECTED_SHA1 : String := "c0d6ebb46b83f1bef6f67f6aa471e38ba7ef8231"

/-- The downloaded archive: its raw bytes (hashed by the verifier)
together with its parsed tar members (consumed by the extractor). -/
structure Archive where
  bytes : List Nat
  members : List TarMember
  deriving DecidableEq, Repr

/-- The ambient configuration: the platform cache directory
(`CACHE_DIR`, resolved by `platformdirs.user_cache_dir` and never
created by that resolution) and whether `TarFile.extract` supports the
`filter` parameter (Python ≥ 3.12). -/
structure Config where
  cacheRoot : Path
  supportsFilter : Bool
  deriving DecidableEq, Repr

/-- `assets_dir = CACHE_DIR / f"monaco-editor-{VERSION}"`. -/
def assetsDirOf (cfg : Config) : Path :=
  cfg.cacheRoot ++ ["monaco-editor-" ++ VERSION]

/-- `package_dir = assets_dir / "package"`. -/
def packageDirOf (cfg : Config) : Path :=
  assetsDirOf cfg ++ ["package"]

/-- `tgz = f"{package}-{VERSION}.tgz"`. -/
def tgzName : String := "monaco-editor-" ++ VERSION ++ ".tgz"

/-- `tgz_file = assets_dir / tgz`. -/
def tgzFileOf (cfg : Config) : Path :=
  assetsDirOf cfg ++ [tgzName]

/-- The download URL built by `get_path`. -/
def urlOf : String :=
  "https://registry.npmjs.org/monaco-editor/-/" ++ tgzName

/-- The cache check `package_dir.exists() and any(package_dir.iterdir())`
that precedes the `try` block of `get_path`.  `some r` means `get_path`
finishes right there with outcome `r` (either the fast-path return or an
unwrapped `NotADirectoryError` from iterating a non-directory);
`none` means the check fell through to the download. -/
def fastCheck (cfg : Config) (fs : FS) : Option (Except Err Path) :=
  match lookupFS (packageDirOf cfg) fs with
  | some .dir =>
    if nonEmptyDir (packageDirOf cfg) fs then some (.ok (packageDirOf cfg)) else none
  | some _ => some (.error (.notADirectory (packageDirOf cfg)))
  | none => none

/-- The body of the `try` block of `get_path` (steps 3–7): create the
version directory, download the archive (`net` is the network's answer),
verify its digest, extract it, delete it and return `package_dir`.
Returns the outcome together with the filesystem reached. -/
def getPathBody (cfg : Config) (net : Except Err Archive) (fs : FS) :
    Except Err Path × FS :=
  match mkdirParents (assetsDirOf cfg) fs with
  | .error e => (.error e, fs)
  | .ok fs1 =>
    match net with
    | .error e => (.error e, fs1)
    | .ok a =>
      let fs2 := insertFS (tgzFileOf cfg) (.file a.bytes) fs1
      if _verify_file_hash a.bytes EXPECTED_SHA1 then
        let ex := _extract_tgz cfg.supportsFilter a.members (tgzFileOf cfg) fs2
        match ex.1 with
        | some e => (.error e, ex.2)
        | none => (.ok (packageDirOf cfg), removeFS (tgzFileOf cfg) ex.2)
      else
        (.error (.valueError ("Hash verification failed for " ++
          pathToString (tgzFileOf cfg))), fs2)

/-- `get_path`: return the cached `package` directory if present and
non-empty, otherwise download, verify and extract the pinned archive.
Any exception in the `try` body removes the whole version directory
(best effort) and is re-raised wrapped in a `RuntimeError` carrying the
original cause. -/
def get_path (cfg : Config) (net : Except Err Archive) (fs : FS) :
    Except Err Path × FS :=
  match fastCheck cfg fs with
  | some r => (r, fs)
  | none =>
    let b := getPathBody cfg net fs
    match b.1 with
    | .ok p => (.ok p, b.2)
    | .error e =>
      (.error (.runtimeError e),
        if existsPath (assetsDirOf cfg) b.2 then rmtreeFS (assetsDirOf cfg) b.2 else b.2)

/-- `clear_cache`: delete the cache root tree when it exists.
`shutil.rmtree` is called without `ignore_errors`, so a filesystem
error (modelled by the oracle `rmErr`) propagates unwrapped. -/
def clear_cache (cacheRoot : Path) (rmErr : Option Err) (fs : FS) :
    Except Err Unit × FS :=
  if existsPath cacheRoot fs then
    match rmErr with
    | some e => (.error e, fs)
    | none => (.ok (), rmtreeFS cacheRoot fs)
  else
    (.ok (), fs)

/-! ## Predicates used in the statements -/

/-- A path with no `..` or `.` segments, so the OS resolves it to
itself. -/
def cleanSegs (l : List String) : Prop :=
  ∀ s ∈ l, s ≠ ".." ∧ s ≠ "."

instance (l : List String) : Decidable (cleanSegs l) := by
  unfold cleanSegs; infer_instance

/-- A tar member shaped like the members of the pinned npm tarball:
relative, dot-free, rooted at the top-level `package` directory, and a
directory when it is the `package` entry itself. -/
def rootedMember (m : TarMember) : Prop :=
  m.isAbs = false ∧ cleanSegs m.segs ∧ m.segs.head? = some "package" ∧
    (m.segs = ["package"] → m.kind = .dir)

instance (m : TarMember) : Decidable (rootedMember m) := by
  unfold rootedMember; infer_instance

/-! ## Concrete fixtures used by witnesses and counterexamples -/

/-- A sample configuration. -/
def cfgEx : Config := ⟨["cacheroot"], true⟩

/-- A filesystem whose `package` directory exists and is non-empty. -/
def fsFastEx : FS :=
  [(["cacheroot"], .dir),
   (["cacheroot", "monaco-editor-0.54.0"], .dir),
   (packageDirOf cfgEx, .dir),
   (packageDirOf cfgEx ++ ["loader.js"], .file [1])]

/-- A filesystem whose `package` directory exists but is empty. -/
def fsEmptyPkgEx : FS :=
  [(["cacheroot"], .dir),
   (["cacheroot", "monaco-editor-0.54.0"], .dir),
   (packageDirOf cfgEx, .dir)]

/-- A filesystem where the `package` path is a regular file. -/
def fsFilePkgEx : FS :=
  [(packageDirOf cfgEx, .file [0])]

/-- A sample extraction destination and its pre-existing directories. -/
def destEx : Path := ["r", "d"]

/-- The filesystem around `destEx`. -/
def fsDestEx : FS := [(["r"], .dir), (["r", "d"], .dir)]

/-- A path-traversal tar member (`../evil`). -/
def memberEvil : TarMember := ⟨false, ["..", "evil"], .file [7]⟩

/-- A well-behaved tar member under `package/`. -/
def memberGood : TarMember := ⟨false, ["package", "a.js"], .file [1]⟩

/-- The filesystem after extracting `memberGood` into `destEx`. -/
def fsGoodEx : FS :=
  [(["r", "d", "package", "a.js"], .file [1]),
   (["r", "d", "package"], .dir),
   (["r"], .dir),
   (["r", "d"], .dir)]

/-- The concrete hash-mismatch message for `cfgEx`. -/
def mismatchMsgEx : String :=
  "Hash verification failed for cacheroot/monaco-editor-0.54.0/monaco-editor-0.54.0.tgz"

/-- An empty archive (its digest is the SHA-1 of the empty string,
which differs from the pinned digest). -/
def archiveEmptyEx : Archive := ⟨[], []⟩

/-! ## Lemmas: leading runs of segments -/

theorem pfxOf_refl {α : Type} [DecidableEq α] (l : List α) : pfxOf l l = true := by
  induction l with
  | nil => rfl
  | cons a l ih => simp [pfxOf, ih]

theorem pfxOf_append {α : Type} [DecidableEq α] (l t : List α) :
    pfxOf l (l ++ t) = true := by
  induction l with
  | nil => rfl
  | cons a l ih => simp [pfxOf, ih]

theorem pfxOf_iff {α : Type} [DecidableEq α] (a b : List α) :
    pfxOf a b = true ↔ ∃ t, b = a ++ t := by
  induction a generalizing b with
  | nil => exact iff_of_true rfl ⟨b, rfl⟩
  | cons x as ih =>
    cases b with
    | nil => simp [pfxOf]
    | cons y bs =>
      simp only [pfxOf, Bool.and_eq_true, decide_eq_true_eq, ih]
      constructor
      · rintro ⟨rfl, t, rfl⟩; exact ⟨t, rfl⟩
      · rintro ⟨t, h⟩
        injection h with h1 h2
        exact ⟨h1.symm, t, h2⟩

theorem pfxOf_length {α : Type} [DecidableEq α] {a b : List α}
    (h : pfxOf a b = true) : a.length ≤ b.length := by
  obtain ⟨t, rfl⟩ := (pfxOf_iff a b).1 h
  simp

theorem pfxOf_of_longer {α : Type} [DecidableEq α] {a b : List α}
    (h : b.length < a.length) : pfxOf a b = false := by
  by_contra hc
  exact absurd (pfxOf_length (by simpa using hc)) (by omega)

theorem pfxOf_trans {α : Type} [DecidableEq α] {a b c : List α}
    (h1 : pfxOf a b = true) (h2 : pfxOf b c = true) : pfxOf a c = true := by
  obtain ⟨t, rfl⟩ := (pfxOf_iff a b).1 h1
  obtain ⟨u, rfl⟩ := (pfxOf_iff _ _).1 h2
  rw [List.append_assoc]
  exact pfxOf_append a (t ++ u)

theorem pfxOf_comparable {α : Type} [DecidableEq α] :
    ∀ {c a b : List α}, pfxOf a c = true → pfxOf b c = true →
      pfxOf a b = true ∨ pfxOf b a = true := by
  intro c
  induction c with
  | nil =>
    intro a b ha hb
    cases a <;> cases b <;> simp_all [pfxOf]
  | cons z cs ih =>
    intro a b ha hb
    cases a with
    | nil => left; rfl
    | cons x as =>
      cases b with
      | nil => right; rfl
      | cons y bs =>
        simp only [pfxOf, Bool.and_eq_true, decide_eq_true_eq] at ha hb ⊢
        rcases ha with ⟨rfl, ha⟩
        rcases hb with ⟨rfl, hb⟩
        rcases ih ha hb with h | h
        · exact Or.inl ⟨rfl, h⟩
        · exact Or.inr ⟨rfl, h⟩

theorem mem_initsOf {q p : Path} : q ∈ initsOf p ↔ pfxOf q p = true := by
  induction p generalizing q with
  | nil =>
    cases q <;> simp [initsOf, pfxOf]
  | cons a as ih =>
    cases q with
    | nil => simp [initsOf, pfxOf]
    | cons x xs =>
      simp only [initsOf, List.mem_cons, List.mem_map, pfxOf, Bool.and_eq_true,
        decide_eq_true_eq]
      constructor
      · rintro (h | ⟨b, hb, heq⟩)
        · exact absurd h (List.cons_ne_nil x xs)
        · injection heq with h1 h2
          exact ⟨h1.symm, by rw [← h2]; exact ih.1 hb⟩
      · rintro ⟨rfl, hts⟩
        exact Or.inr ⟨xs, ih.2 hts, rfl⟩

theorem initsOf_self_mem (p : Path) : p ∈ initsOf p :=
  mem_initsOf.2 (pfxOf_refl p)

/-! ## Lemmas: filesystem primitives -/

theorem lookup_removeFS (p q : Path) (fs : FS) :
    lookupFS q (removeFS p fs) = if p = q then none else lookupFS q fs := by
  induction fs with
  | nil => simp [removeFS, lookupFS]
  | cons e fs ih =>
    obtain ⟨r, n⟩ := e
    by_cases hrp : r = p
    · subst hrp
      by_cases hrq : r = q
      · subst hrq; simp [removeFS, lookupFS, ih]
      · simp [removeFS, lookupFS, hrq, ih, Ne.symm hrq]
    · by_cases hrq : r = q
      · subst hrq
        simp [removeFS, lookupFS, hrp, ih]
        intro h; exact absurd h.symm hrp
      · simp [removeFS, lookupFS, hrp, hrq, ih]

theorem lookup_insertFS (p : Path) (n : Node) (q : Path) (fs : FS) :
    lookupFS q (insertFS p n fs) = if p = q then some n else lookupFS q fs := by
  by_cases h : p = q <;> simp [insertFS, lookupFS, lookup_removeFS, h]

theorem exists_insertFS_mono {q : Path} {fs : FS} (p : Path) (n : Node)
    (h : existsPath q fs = true) : existsPath q (insertFS p n fs) = true := by
  by_cases hpq : p = q
  · simp [existsPath, lookup_insertFS, hpq]
  · simpa [existsPath, lookup_insertFS, hpq] using h

theorem lookup_rmtree_pfx {a p : Path} (fs : FS) (h : pfxOf a p = true) :
    lookupFS p (rmtreeFS a fs) = none := by
  induction fs with
  | nil => rfl
  | cons e fs ih =>
    obtain ⟨q, n⟩ := e
    by_cases hq : pfxOf a q
    · simp [rmtreeFS, hq, ih]
    · have hqp : q ≠ p := by rintro rfl; exact hq h
      simp [rmtreeFS, hq, lookupFS, hqp, ih]

theorem lookup_rmtree_not {a p : Path} (fs : FS) (h : pfxOf a p = false) :
    lookupFS p (rmtreeFS a fs) = lookupFS p fs := by
  induction fs with
  | nil => rfl
  | cons e fs ih =>
    obtain ⟨q, n⟩ := e
    by_cases hq : pfxOf a q
    · have hqp : q ≠ p := by
        rintro rfl; rw [hq] at h; cases h
      simp [rmtreeFS, hq, lookupFS, hqp, ih]
    · by_cases hqp : q = p
      · subst hqp; simp [rmtreeFS, hq, lookupFS]
      · simp [rmtreeFS, hq, lookupFS, hqp, ih]

/-! ## Lemmas: directory creation -/

theorem lookup_addDir_of_some {fs : FS} {r : Path} {n : Node} (q : Path)
    (h : lookupFS r fs = some n) : lookupFS r (addDir fs q) = some n := by
  unfold addDir
  split
  · exact h
  · split
    · exact h
    · rename_i hq hmiss
      have hqr : q ≠ r := by
        rintro rfl; simp [h] at hmiss
      rw [lookup_insertFS, if_neg hqr]; exact h

theorem lookup_addDir_ne {q r : Path} (fs : FS) (h : q ≠ r) :
    lookupFS r (addDir fs q) = lookupFS r fs := by
  unfold addDir
  split
  · rfl
  · split
    · rfl
    · rw [lookup_insertFS, if_neg h]

theorem exists_addDir_self (fs : FS) {q : Path} (h : q ≠ []) :
    existsPath q (addDir fs q) = true := by
  unfold addDir
  split
  · exact absurd (by assumption) h
  · split
    · simpa [existsPath] using (by assumption)
    · simp [existsPath, lookup_insertFS]

theorem lookup_addDirs_of_some {r : Path} {n : Node} :
    ∀ (l : List Path) (fs : FS), lookupFS r fs = some n →
      lookupFS r (addDirs l fs) = some n := by
  intro l
  induction l with
  | nil => intro fs h; exact h
  | cons q rest ih =>
    intro fs h
    exact ih (addDir fs q) (lookup_addDir_of_some q h)

theorem exists_addDirs_mono {r : Path} (l : List Path) (fs : FS)
    (h : existsPath r fs = true) : existsPath r (addDirs l fs) = true := by
  rcases Option.isSome_iff_exists.1 (by simpa [existsPath] using h) with ⟨n, hn⟩
  simp [existsPath, lookup_addDirs_of_some l fs hn]

theorem exists_addDirs_mem {r : Path} :
    ∀ (l : List Path) (fs : FS), r ∈ l → r ≠ [] →
      existsPath r (addDirs l fs) = true := by
  intro l
  induction l with
  | nil => intro fs h; cases h
  | cons q rest ih =>
    intro fs h hne
    rcases List.mem_cons.1 h with rfl | hmem
    · exact exists_addDirs_mono rest (addDir fs r) (exists_addDir_self fs hne)
    · exact ih (addDir fs q) hmem hne

theorem lookup_addDirs_not_mem {r : Path} :
    ∀ (l : List Path) (fs : FS), r ∉ l →
      lookupFS r (addDirs l fs) = lookupFS r fs := by
  intro l
  induction l with
  | nil => intro fs _; rfl
  | cons q rest ih =>
    intro fs h
    have hq : q ≠ r := fun hqr => h (by simp [hqr])
    rw [addDirs, List.foldl_cons, ← addDirs, ih (addDir fs q) (fun hm => h (by simp [hm])),
      lookup_addDir_ne fs hq]

theorem mkdir_ok_eq {p : Path} {fs fs' : FS}
    (h : mkdirParents p fs = .ok fs') : fs' = addDirs (initsOf p) fs := by
  unfold mkdirParents at h
  split at h
  · cases h
  · injection h with h; exact h.symm

theorem mkdir_exists_self {p : Path} {fs fs' : FS}
    (h : mkdirParents p fs = .ok fs') (hp : p ≠ []) : existsPath p fs' = true := by
  rw [mkdir_ok_eq h]
  exact exists_addDirs_mem (initsOf p) fs (initsOf_self_mem p) hp

theorem mkdir_exists_mono {p : Path} {fs fs' : FS} {q : Path}
    (h : mkdirParents p fs = .ok fs') (hq : existsPath q fs = true) :
    existsPath q fs' = true := by
  rw [mkdir_ok_eq h]
  exact exists_addDirs_mono (initsOf p) fs hq

theorem mkdir_lookup_not_pfx {p : Path} {fs fs' : FS} {q : Path}
    (h : mkdirParents p fs = .ok fs') (hq : pfxOf q p = false) :
    lookupFS q fs' = lookupFS q fs := by
  rw [mkdir_ok_eq h]
  exact lookup_addDirs_not_mem (initsOf p) fs
    (fun hm => by rw [mem_initsOf.1 hm] at hq; cases hq)

theorem mkdir_lookup_of_some {p : Path} {fs fs' : FS} {q : Path} {n : Node}
    (h : mkdirParents p fs = .ok fs') (hq : lookupFS q fs = some n) :
    lookupFS q fs' = some n := by
  rw [mkdir_ok_eq h]
  exact lookup_addDirs_of_some (initsOf p) fs hq

/-! ## Lemmas: extraction monotonicity -/

theorem exists_addDir_mono {fs : FS} {r : Path} (q : Path)
    (h : existsPath r fs = true) : existsPath r (addDir fs q) = true := by
  rcases Option.isSome_iff_exists.1 (by simpa [existsPath] using h) with ⟨n, hn⟩
  simp [existsPath, lookup_addDir_of_some q hn]

theorem exists_writeNode_mono {fs1 : FS} {r : Path} (target : Path) (k : MKind)
    (h : existsPath r fs1 = true) : existsPath r (writeNode target k fs1) = true := by
  unfold writeNode
  split
  · exact exists_insertFS_mono _ _ h
  · exact exists_addDir_mono _ h
  · exact exists_insertFS_mono _ _ h

theorem extractMember_exists_mono {dest : Path} {m : TarMember} {fs fs' : FS}
    {r : Path} (h : extractMember dest m fs = .ok fs')
    (hr : existsPath r fs = true) : existsPath r fs' = true := by
  unfold extractMember at h
  split at h
  · cases h
  · rename_i fs1 hmk
    injection h with h; subst h
    exact exists_writeNode_mono _ _ (mkdir_exists_mono hmk hr)

theorem extractLoop_exists_mono {sf : Bool} {dest : Path} {r : Path} :
    ∀ (ms : List TarMember) (fs : FS) (res : Option Err) (fs' : FS),
      extractLoop sf dest ms fs = (res, fs') →
      existsPath r fs = true → existsPath r fs' = true := by
  intro ms
  induction ms with
  | nil =>
    intro fs res fs' h hr
    injection h with h1 h2; subst h2; exact hr
  | cons m rest ih =>
    intro fs res fs' h hr
    unfold extractLoop at h
    split at h
    · injection h with h1 h2; subst h2; exact hr
    · split at h
      · injection h with h1 h2; subst h2; exact hr
      · rename_i fs1 hext
        exact ih fs1 res fs' h (extractMember_exists_mono hext hr)

theorem extract_tgz_exists_mono {sf : Bool} {ms : List TarMember} {tgz : Path}
    {fs : FS} {res : Option Err} {fs' : FS} {r : Path}
    (h : _extract_tgz sf ms tgz fs = (res, fs'))
    (hr : existsPath r fs = true) : existsPath r fs' = true := by
  unfold _extract_tgz at h
  exact extractLoop_exists_mono ms fs res fs' h hr

/-! ## Lemmas: the body of `get_path` -/

theorem assetsDirOf_ne_nil (cfg : Config) : assetsDirOf cfg ≠ [] := by
  simp [assetsDirOf]

theorem body_error_state {cfg : Config} {net : Except Err Archive} {fs : FS}
    {e : Err} {fs1 : FS} (h : getPathBody cfg net fs = (.error e, fs1)) :
    fs1 = fs ∨ existsPath (assetsDirOf cfg) fs1 = true := by
  unfold getPathBody at h
  split at h
  · injection h with h1 h2; exact Or.inl h2.symm
  · rename_i fsm hmk
    have hm : existsPath (assetsDirOf cfg) fsm = true :=
      mkdir_exists_self hmk (assetsDirOf_ne_nil cfg)
    split at h
    · injection h with h1 h2; subst h2; exact Or.inr hm
    · rename_i a
      have hins : existsPath (assetsDirOf cfg) (insertFS (tgzFileOf cfg) (.file a.bytes) fsm)
          = true := exists_insertFS_mono _ _ hm
      split at h
      · dsimp only at h
        split at h
        · injection h with h1 h2; subst h2
          exact Or.inr (extract_tgz_exists_mono rfl hins)
        · cases h
      · injection h with h1 h2; subst h2; exact Or.inr hins

theorem lookup_some_mem {p : Path} {n : Node} :
    ∀ {fs : FS}, lookupFS p fs = some n → (p, n) ∈ fs := by
  intro fs
  induction fs with
  | nil => intro h; cases h
  | cons e fs ih =>
    obtain ⟨q, m⟩ := e
    intro h
    unfold lookupFS at h
    split at h
    · rename_i hq
      injection h with h; subst hq h; exact List.mem_cons_self _ _
    · exact List.mem_cons_of_mem _ (ih h)

theorem wf_no_orphans {fs : FS} {a p : Path} (hwf : WF fs)
    (ha : lookupFS a fs = none) (hpfx : pfxOf a p = true)
    (hne : a ≠ p) (hnil : a ≠ []) : lookupFS p fs = none := by
  cases hl : lookupFS p fs with
  | none => rfl
  | some n =>
    have hmem := lookup_some_mem hl
    have := hwf (p, n) hmem a (mem_initsOf.2 hpfx) hne hnil
    rw [this] at ha; cases ha

/-! ## Lemmas: chunked reading -/

theorem chunksGo_foldl {α : Type} {n : Nat} (hn : n ≠ 0) :
    ∀ (fuel : Nat) (l : List α), l.length ≤ fuel → ∀ acc : List α,
      (chunksGo n fuel l).foldl (fun a c => a ++ c) acc = acc ++ l := by
  intro fuel
  induction fuel with
  | zero =>
    intro l hl acc
    have : l = [] := List.eq_nil_of_length_eq_zero (Nat.le_zero.1 hl)
    subst this
    simp [chunksGo]
  | succ f ih =>
    intro l hl acc
    cases l with
    | nil => simp [chunksGo]
    | cons a t =>
      rw [chunksGo, List.foldl_cons,
        ih ((a :: t).drop n) (by simp only [List.length_drop]; simp at hl ⊢; omega) _,
        List.append_assoc, List.take_append_drop]

theorem chunksGo_bounds {α : Type} {n : Nat} (hn : n ≠ 0) :
    ∀ (fuel : Nat) (l : List α), l.length ≤ fuel → ∀ c ∈ chunksGo n fuel l,
      c.length ≤ n ∧ c ≠ [] := by
  intro fuel
  induction fuel with
  | zero =>
    intro l hl c hc
    have : l = [] := List.eq_nil_of_length_eq_zero (Nat.le_zero.1 hl)
    subst this; cases hc
  | succ f ih =>
    intro l hl c hc
    cases l with
    | nil => cases hc
    | cons a t =>
      rw [chunksGo] at hc
      rcases List.mem_cons.1 hc with rfl | hc
      · refine ⟨List.length_take_le n (a :: t), ?_⟩
        cases n with
        | zero => exact absurd rfl hn
        | succ m => simp [List.take]
      · exact ih ((a :: t).drop n) (by simp [List.length_drop] at hl ⊢; omega) c hc

theorem readChunks_foldl (content : List Nat) :
    (readChunks content).foldl (fun acc c => acc ++ c) [] = content := by
  have h := chunksGo_foldl (n := 4096) (by omega) content.length content le_rfl []
  simpa [readChunks, chunksOf] using h

/-! ## Lemmas: path resolution and extraction targets -/

theorem foldl_resolve_clean :
    ∀ {q : List String}, cleanSegs q → ∀ acc : Path,
      q.foldl (fun acc s =>
        if s = ".." then acc.dropLast else if s = "." then acc else acc ++ [s]) acc
        = acc ++ q := by
  intro q
  induction q with
  | nil => intro _ acc; simp
  | cons s t ih =>
    intro hc acc
    have hs := hc s (List.mem_cons_self s t)
    have ht : cleanSegs t := fun x hx => hc x (List.mem_cons_of_mem s hx)
    rw [List.foldl_cons, if_neg hs.1, if_neg hs.2, ih ht]
    simp

theorem resolveDots_clean {p : Path} (hc : cleanSegs p) : resolveDots p = p := by
  unfold resolveDots
  rw [foldl_resolve_clean hc []]
  rfl

theorem cleanSegs_append {a b : List String} (ha : cleanSegs a) (hb : cleanSegs b) :
    cleanSegs (a ++ b) := by
  intro s hs
  rcases List.mem_append.1 hs with h | h
  · exact ha s h
  · exact hb s h

theorem pfxOf_dropLast {α : Type} [DecidableEq α] :
    ∀ (l : List α), pfxOf l.dropLast l = true := by
  intro l
  induction l with
  | nil => rfl
  | cons a t ih =>
    cases t with
    | nil => rfl
    | cons b u =>
      rw [List.dropLast_cons_of_ne_nil (List.cons_ne_nil b u)]
      simp [pfxOf, ih]

theorem pfxOf_app_both {α : Type} [DecidableEq α] :
    ∀ (a b c : List α), pfxOf (a ++ b) (a ++ c) = pfxOf b c := by
  intro a
  induction a with
  | nil => intro b c; rfl
  | cons x t ih => intro b c; simp [pfxOf, ih]

theorem dataFilterOk_target {dest : Path} {m : TarMember}
    (h : dataFilterOk dest m = true) :
    pfxOf dest (memberTarget dest m) = true := by
  unfold dataFilterOk at h
  simp only [Bool.and_eq_true, Bool.not_eq_true'] at h
  unfold memberTarget
  rw [h.1.1]
  exact h.1.2

theorem lookup_writeNode_ne {target p : Path} (hne : target ≠ p) (k : MKind)
    (fs1 : FS) : lookupFS p (writeNode target k fs1) = lookupFS p fs1 := by
  unfold writeNode
  split
  · rw [lookup_insertFS, if_neg hne]
  · exact lookup_addDir_ne fs1 hne
  · rw [lookup_insertFS, if_neg hne]

theorem lookup_addDir_nil (fs : FS) (q : Path) :
    lookupFS [] (addDir fs q) = lookupFS [] fs := by
  unfold addDir
  split
  · rfl
  · split
    · rfl
    · rename_i hq _
      rw [lookup_insertFS, if_neg hq]

theorem lookup_addDirs_nil : ∀ (l : List Path) (fs : FS),
    lookupFS [] (addDirs l fs) = lookupFS [] fs := by
  intro l
  induction l with
  | nil => intro fs; rfl
  | cons q rest ih =>
    intro fs
    rw [addDirs, List.foldl_cons, ← addDirs, ih (addDir fs q), lookup_addDir_nil]

/-- Creating the ancestors of an extraction target below `dest` does
not change any path that is not below `dest`, provided `dest`'s own
chain of ancestors already exists. -/
theorem mkdir_frame_outside {par : Path} {fs fs' : FS} {dest p target : Path}
    (h : mkdirParents par fs = .ok fs')
    (hpt : pfxOf par target = true)
    (hdt : pfxOf dest target = true)
    (hanc : ∀ q ∈ initsOf dest, q ≠ [] → existsPath q fs = true)
    (hp : pfxOf dest p = false) :
    lookupFS p fs' = lookupFS p fs := by
  rw [mkdir_ok_eq h]
  by_cases hmem : p ∈ initsOf par
  · -- p is an ancestor of the target, hence comparable with dest; since
    -- p is not below dest, p is an ancestor of dest and already present.
    have hptg : pfxOf p target = true := pfxOf_trans (mem_initsOf.1 hmem) hpt
    rcases pfxOf_comparable hptg hdt with hc | hc
    · cases p with
      | nil => exact lookup_addDirs_nil _ fs
      | cons x xs =>
        have hex := hanc (x :: xs) (mem_initsOf.2 hc) (List.cons_ne_nil x xs)
        rcases Option.isSome_iff_exists.1 (by simpa [existsPath] using hex) with ⟨n, hn⟩
        rw [lookup_addDirs_of_some _ fs hn, hn]
    · rw [hc] at hp; cases hp
  · exact lookup_addDirs_not_mem _ fs hmem

/-- Extracting a member whose target lies below `dest` does not change
any path that is not below `dest`. -/
theorem extractMember_frame {dest : Path} {m : TarMember} {fs fs' : FS} {p : Path}
    (h : extractMember dest m fs = .ok fs')
    (htgt : pfxOf dest (memberTarget dest m) = true)
    (hanc : ∀ q ∈ initsOf dest, q ≠ [] → existsPath q fs = true)
    (hp : pfxOf dest p = false) :
    lookupFS p fs' = lookupFS p fs := by
  unfold extractMember at h
  split at h
  · cases h
  · rename_i fs1 hmk
    injection h with h; subst h
    have htp : memberTarget dest m ≠ p := by
      rintro rfl; rw [htgt] at hp; cases hp
    rw [lookup_writeNode_ne htp,
      mkdir_frame_outside hmk (pfxOf_dropLast (memberTarget dest m)) htgt hanc hp]

/-- The member loop with the `data` filter active never changes a path
that is not below the destination directory. -/
theorem extractLoop_frame {dest p : Path} (hp : pfxOf dest p = false) :
    ∀ (ms : List TarMember) (fs : FS) (res : Option Err) (fs' : FS),
      (∀ q ∈ initsOf dest, q ≠ [] → existsPath q fs = true) →
      extractLoop true dest ms fs = (res, fs') →
      lookupFS p fs' = lookupFS p fs := by
  intro ms
  induction ms with
  | nil =>
    intro fs res fs' _ h
    injection h with h1 h2; subst h2; rfl
  | cons m rest ih =>
    intro fs res fs' hanc h
    unfold extractLoop at h
    split at h
    · injection h with h1 h2; subst h2; rfl
    · rename_i hflt
      have hok : dataFilterOk dest m = true := by
        rcases Bool.eq_false_or_eq_true (dataFilterOk dest m) with ht | hf
        · exact ht
        · rw [hf] at hflt; simp at hflt
      split at h
      · injection h with h1 h2; subst h2; rfl
      · rename_i fs1 hext
        have hanc1 : ∀ q ∈ initsOf dest, q ≠ [] → existsPath q fs1 = true :=
          fun q hq hqn => extractMember_exists_mono hext (hanc q hq hqn)
        rw [ih fs1 res fs' hanc1 h,
          extractMember_frame hext (dataFilterOk_target hok) hanc hp]

/-- When the member loop with the `data` filter active succeeds, every
member passed the filter. -/
theorem extractLoop_all_ok {dest : Path} :
    ∀ (ms : List TarMember) (fs : FS) (fs' : FS),
      extractLoop true dest ms fs = (none, fs') →
      ∀ m ∈ ms, dataFilterOk dest m = true := by
  intro ms
  induction ms with
  | nil => intro fs fs' _ m hm; cases hm
  | cons m rest ih =>
    intro fs fs' h m' hm'
    unfold extractLoop at h
    split at h
    · cases h
    · rename_i hflt
      have hok : dataFilterOk dest m = true := by
        rcases Bool.eq_false_or_eq_true (dataFilterOk dest m) with ht | hf
        · exact ht
        · rw [hf] at hflt; simp at hflt
      split at h
      · cases h
      · rename_i fs1 hext
        rcases List.mem_cons.1 hm' with rfl | hm'
        · exact hok
        · exact ih fs1 fs' h m' hm'

/-! ## Lemmas: the extracted `package` directory -/

theorem lookup_addDir_self_dir {fs : FS} {q : Path} (hq : q ≠ [])
    (h : lookupFS q fs = none ∨ lookupFS q fs = some .dir) :
    lookupFS q (addDir fs q) = some .dir := by
  unfold addDir
  split
  · exact absurd (by assumption) hq
  · split
    · rcases h with h | h
      · rename_i hs
        rw [h] at hs; cases hs
      · exact h
    · rw [lookup_insertFS, if_pos rfl]

theorem addDirs_mem_dir {r : Path} :
    ∀ (l : List Path) (fs : FS), r ∈ l → r ≠ [] →
      (lookupFS r fs = none ∨ lookupFS r fs = some .dir) →
      lookupFS r (addDirs l fs) = some .dir := by
  intro l
  induction l with
  | nil => intro fs h; cases h
  | cons q rest ih =>
    intro fs hmem hne hdich
    rcases List.mem_cons.1 hmem with rfl | hmem
    · rw [addDirs, List.foldl_cons, ← addDirs]
      exact lookup_addDirs_of_some rest _ (lookup_addDir_self_dir hne hdich)
    · by_cases hqr : q = r
      · subst hqr
        rw [addDirs, List.foldl_cons, ← addDirs]
        exact lookup_addDirs_of_some rest _ (lookup_addDir_self_dir hne hdich)
      · rw [addDirs, List.foldl_cons, ← addDirs]
        exact ih (addDir fs q) hmem hne (by rw [lookup_addDir_ne fs hqr]; exact hdich)

theorem mkdir_pkg_dir {par : Path} {fs fs' : FS} {pkgd : Path}
    (h : mkdirParents par fs = .ok fs') (hmem : pkgd ∈ initsOf par)
    (hne : pkgd ≠ [])
    (hdich : lookupFS pkgd fs = none ∨ lookupFS pkgd fs = some .dir) :
    lookupFS pkgd fs' = some .dir := by
  rw [mkdir_ok_eq h]
  exact addDirs_mem_dir (initsOf par) fs hmem hne hdich

/-- Extracting one member rooted at `package/` leaves the `package`
path as an existing directory. -/
theorem extractMember_pkg {dest : Path} {m : TarMember} {fs fs1 : FS}
    (hdest : cleanSegs dest) (hm : rootedMember m)
    (hdich : lookupFS (dest ++ ["package"]) fs = none ∨
      lookupFS (dest ++ ["package"]) fs = some .dir)
    (h : extractMember dest m fs = .ok fs1) :
    lookupFS (dest ++ ["package"]) fs1 = some .dir := by
  obtain ⟨habs, hcl, hhead, hdir⟩ := hm
  have hpkgne : dest ++ ["package"] ≠ [] := by simp
  cases hsegs : m.segs with
  | nil => rw [hsegs] at hhead; cases hhead
  | cons s rest =>
    rw [hsegs] at hhead
    injection hhead with hhead
    subst hhead
    have htarget : memberTarget dest m = dest ++ m.segs := by
      unfold memberTarget
      rw [habs]
      simp only [Bool.false_eq_true, if_false]
      exact resolveDots_clean (cleanSegs_append hdest hcl)
    unfold extractMember at h
    split at h
    · cases h
    · rename_i fsm hmk
      injection h with h; subst h
      cases rest with
      | nil =>
        have hkind : m.kind = .dir := hdir hsegs
        have htgt : memberTarget dest m = dest ++ ["package"] := by rw [htarget, hsegs]
        rw [htgt] at hmk
        rw [List.dropLast_concat] at hmk
        have hfsm : lookupFS (dest ++ ["package"]) fsm = none ∨
            lookupFS (dest ++ ["package"]) fsm = some .dir := by
          have hnp : pfxOf (dest ++ ["package"]) dest = false :=
            pfxOf_of_longer (by simp)
          rw [mkdir_lookup_not_pfx hmk hnp]
          exact hdich
        rw [htgt, hkind]
        unfold writeNode
        exact lookup_addDir_self_dir hpkgne hfsm
      | cons x rest2 =>
        have htgt : memberTarget dest m = dest ++ "package" :: x :: rest2 := by
          rw [htarget, hsegs]
        have hpar : (memberTarget dest m).dropLast =
            dest ++ "package" :: (x :: rest2).dropLast := by
          rw [htgt, List.dropLast_append_of_ne_nil dest (List.cons_ne_nil _ _),
            List.dropLast_cons_of_ne_nil (List.cons_ne_nil x rest2)]
        have hmempkg : dest ++ ["package"] ∈ initsOf ((memberTarget dest m).dropLast) := by
          rw [hpar]
          refine mem_initsOf.2 ?_
          rw [show dest ++ "package" :: (x :: rest2).dropLast
              = (dest ++ ["package"]) ++ (x :: rest2).dropLast by simp]
          exact pfxOf_append _ _
        have hfsm : lookupFS (dest ++ ["package"]) fsm = some .dir :=
          mkdir_pkg_dir hmk hmempkg hpkgne hdich
        have htne : memberTarget dest m ≠ dest ++ ["package"] := by
          rw [htgt]
          intro hx
          have := List.append_cancel_left hx
          cases this
        rw [lookup_writeNode_ne htne, hfsm]

/-- A successful extraction of a non-empty list of members rooted at
`package/` leaves the `package` path as an existing directory. -/
theorem extract_loop_pkg {sf : Bool} {dest : Path} (hdest : cleanSegs dest) :
    ∀ (ms : List TarMember) (fs fs' : FS),
      (∀ m ∈ ms, rootedMember m) →
      (lookupFS (dest ++ ["package"]) fs = none ∨
        lookupFS (dest ++ ["package"]) fs = some .dir) →
      extractLoop sf dest ms fs = (none, fs') → ms ≠ [] →
      lookupFS (dest ++ ["package"]) fs' = some .dir := by
  intro ms
  induction ms with
  | nil => intro fs fs' _ _ _ hne; exact absurd rfl hne
  | cons m rest ih =>
    intro fs fs' hms hdich h _
    unfold extractLoop at h
    split at h
    · injection h with h1 h2; cases h1
    · split at h
      · injection h with h1 h2; cases h1
      · rename_i fs1 hext
        have hd : lookupFS (dest ++ ["package"]) fs1 = some .dir :=
          extractMember_pkg hdest (hms m (List.mem_cons_self m rest)) hdich hext
        cases rest with
        | nil =>
          unfold extractLoop at h
          injection h with h1 h2
          rw [← h2]
          exact hd
        | cons r rs =>
          exact ih fs1 fs' (fun x hx => hms x (List.mem_cons_of_mem m hx))
            (Or.inr hd) h (List.cons_ne_nil r rs)

theorem tgzFile_ne_packageDir (cfg : Config) : tgzFileOf cfg ≠ packageDirOf cfg := by
  intro h
  unfold tgzFileOf packageDirOf at h
  have h2 := List.append_cancel_left h
  injection h2 with h3 _
  exact absurd h3 (by decide)

theorem tgzFile_dropLast (cfg : Config) :
    (tgzFileOf cfg).dropLast = assetsDirOf cfg := by
  unfold tgzFileOf
  exact List.dropLast_concat

/-- Full shape of a successful `try` body: the result is the `package`
directory, the network answered with an archive, the version directory
was created, extraction succeeded, and the archive file was deleted. -/
theorem body_ok_cases {cfg : Config} {net : Except Err Archive} {fs : FS}
    {q : Path} {fs2 : FS} (h : getPathBody cfg net fs = (.ok q, fs2)) :
    q = packageDirOf cfg ∧
    ∃ a fsm, net = .ok a ∧ mkdirParents (assetsDirOf cfg) fs = .ok fsm ∧
      ∃ exr, _extract_tgz cfg.supportsFilter a.members (tgzFileOf cfg)
          (insertFS (tgzFileOf cfg) (.file a.bytes) fsm) = (none, exr) ∧
        fs2 = removeFS (tgzFileOf cfg) exr := by
  unfold getPathBody at h
  split at h
  · cases h
  · rename_i fsm hmk
    split at h
    · cases h
    · rename_i a
      dsimp only at h
      split at h
      · split at h
        · cases h
        · rename_i hex1
          injection h with h1 h2
          injection h1 with h1
          refine ⟨h1.symm, a, fsm, rfl, hmk, ?_⟩
          refine ⟨(_extract_tgz cfg.supportsFilter a.members (tgzFileOf cfg)
            (insertFS (tgzFileOf cfg) (.file a.bytes) fsm)).2, ?_, h2.symm⟩
          have heta : _extract_tgz cfg.supportsFilter a.members (tgzFileOf cfg)
              (insertFS (tgzFileOf cfg) (.file a.bytes) fsm) =
              ((_extract_tgz cfg.supportsFilter a.members (tgzFileOf cfg)
                (insertFS (tgzFileOf cfg) (.file a.bytes) fsm)).1,
               (_extract_tgz cfg.supportsFilter a.members (tgzFileOf cfg)
                (insertFS (tgzFileOf cfg) (.file a.bytes) fsm)).2) := rfl
          rw [heta, hex1]
      · cases h

theorem pfx_assets_tgz (cfg : Config) :
    pfxOf (assetsDirOf cfg) (tgzFileOf cfg) = true := by
  unfold tgzFileOf
  exact pfxOf_append _ _

/-- Presence of a path outside the version directory is preserved by
the whole `try` body once the version directory has been created. -/
theorem body_state_exists {cfg : Config} {net : Except Err Archive} {fs : FS}
    {q : Path} {fsm : FS}
    (hq : pfxOf (assetsDirOf cfg) q = false)
    (hmk : mkdirParents (assetsDirOf cfg) fs = .ok fsm)
    (hqm : existsPath q fsm = true) :
    existsPath q (getPathBody cfg net fs).2 = true := by
  have hqtgz : q ≠ tgzFileOf cfg := by
    rintro rfl
    rw [pfx_assets_tgz cfg] at hq
    cases hq
  unfold getPathBody
  rw [hmk]
  cases net with
  | error e => exact hqm
  | ok a =>
    dsimp only
    have hq2 : existsPath q (insertFS (tgzFileOf cfg) (.file a.bytes) fsm) = true :=
      exists_insertFS_mono _ _ hqm
    by_cases hv : _verify_file_hash a.bytes EXPECTED_SHA1 = true
    · rw [if_pos hv]
      cases hex : (_extract_tgz cfg.supportsFilter a.members (tgzFileOf cfg)
          (insertFS (tgzFileOf cfg) (.file a.bytes) fsm)).1 with
      | some e =>
        dsimp only
        exact extract_tgz_exists_mono rfl hq2
      | none =>
        dsimp only
        unfold existsPath
        rw [lookup_removeFS, if_neg (fun hx => hqtgz hx.symm)]
        exact extract_tgz_exists_mono rfl hq2
    · rw [if_neg hv]
      exact hq2

/-! ## The claims -/

/-- C5: for every file, `_verify_file_hash` streams the full content in
fixed-size chunks (each read is at most 4096 bytes and non-empty, and
re-concatenating the chunks gives back the whole content) through the
hash accumulator, and succeeds exactly when the hex SHA-1 digest of the
whole content equals the pinned expected value. -/
theorem C5_verify_hash (content : List Nat) (expected : String) :
    (readChunks content).foldl (fun acc c => acc ++ c) [] = content ∧
    (∀ c ∈ readChunks content, c.length ≤ 4096 ∧ c ≠ []) ∧
    (_verify_file_hash content expected = true ↔ sha1Hex content = expected) := by
  refine ⟨readChunks_foldl content, ?_, ?_⟩
  · intro c hc
    exact chunksGo_bounds (by omega) content.length content le_rfl c hc
  · unfold _verify_file_hash
    rw [readChunks_foldl]
    exact beq_iff_eq

/-- Witness for C5 at a concrete content and the pinned digest. -/
theorem C5_verify_hash_witness :
    (readChunks [1, 2, 3]).foldl (fun acc c => acc ++ c) [] = [1, 2, 3] ∧
    (∀ c ∈ readChunks [1, 2, 3], c.length ≤ 4096 ∧ c ≠ []) ∧
    (_verify_file_hash [1, 2, 3] EXPECTED_SHA1 = true ↔
      sha1Hex [1, 2, 3] = EXPECTED_SHA1) :=
  C5_verify_hash [1, 2, 3] EXPECTED_SHA1

/-- C4: when the `package` directory exists and contains at least one
entry, `get_path` returns it immediately: the result does not depend on
the network at all and the filesystem is returned unchanged.  When the
`package` directory exists but is empty, the pre-`try` cache check falls
through (no fast path). -/
theorem C4_fast_path (cfg : Config) (fs : FS)
    (hdir : lookupFS (packageDirOf cfg) fs = some .dir) :
    (nonEmptyDir (packageDirOf cfg) fs = true →
      ∀ net, get_path cfg net fs = (.ok (packageDirOf cfg), fs)) ∧
    (nonEmptyDir (packageDirOf cfg) fs = false → fastCheck cfg fs = none) := by
  constructor
  · intro hne net
    unfold get_path fastCheck
    rw [hdir]
    simp [hne]
  · intro hne
    unfold fastCheck
    rw [hdir]
    simp [hne]

/-- Witness for C4 at concrete inputs: a populated cache takes the fast
path even when the network is down, and an empty `package` directory
does not. -/
theorem C4_fast_path_witness :
    (lookupFS (packageDirOf cfgEx) fsFastEx = some .dir ∧
      nonEmptyDir (packageDirOf cfgEx) fsFastEx = true ∧
      get_path cfgEx (.error (.network "down")) fsFastEx =
        (.ok (packageDirOf cfgEx), fsFastEx)) ∧
    (lookupFS (packageDirOf cfgEx) fsEmptyPkgEx = some .dir ∧
      nonEmptyDir (packageDirOf cfgEx) fsEmptyPkgEx = false ∧
      fastCheck cfgEx fsEmptyPkgEx = none) :=
  ⟨⟨by decide, by decide,
    (C4_fast_path cfgEx fsFastEx (by decide)).1 (by decide) _⟩,
   ⟨by decide, by decide,
    (C4_fast_path cfgEx fsEmptyPkgEx (by decide)).2 (by decide)⟩⟩

/-- C10: on the fast path (existing non-empty `package` directory)
`get_path` performs no filesystem modification at all: the filesystem
component of the result is the input filesystem, whatever the network
would have answered. -/
theorem C10_fast_path_frame (cfg : Config) (fs : FS)
    (hdir : lookupFS (packageDirOf cfg) fs = some .dir)
    (hne : nonEmptyDir (packageDirOf cfg) fs = true) (net : Except Err Archive) :
    (get_path cfg net fs).2 = fs ∧ (get_path cfg net fs).1 = .ok (packageDirOf cfg) := by
  unfold get_path fastCheck
  rw [hdir]
  simp [hne]

/-- Witness for C10 at a concrete populated cache. -/
theorem C10_fast_path_frame_witness :
    lookupFS (packageDirOf cfgEx) fsFastEx = some .dir ∧
    nonEmptyDir (packageDirOf cfgEx) fsFastEx = true ∧
    (get_path cfgEx (.ok archiveEmptyEx) fsFastEx).2 = fsFastEx ∧
    (get_path cfgEx (.ok archiveEmptyEx) fsFastEx).1 = .ok (packageDirOf cfgEx) :=
  ⟨by decide, by decide,
    (C10_fast_path_frame cfgEx fsFastEx (by decide) (by decide) (.ok archiveEmptyEx)).1,
    (C10_fast_path_frame cfgEx fsFastEx (by decide) (by decide) (.ok archiveEmptyEx)).2⟩

/-- C9: when the `package` path exists but is a regular file, the
pre-`try` cache check of `get_path` raises `NotADirectoryError` while
iterating it; the error propagates unwrapped (no `RuntimeError`) and
the filesystem is untouched (no cleanup). -/
theorem C9_precheck_error (cfg : Config) (net : Except Err Archive) (fs : FS)
    (c : List Nat) (h : lookupFS (packageDirOf cfg) fs = some (.file c)) :
    get_path cfg net fs = (.error (.notADirectory (packageDirOf cfg)), fs) := by
  unfold get_path fastCheck
  rw [h]

/-- Witness for C9 at a concrete cache whose `package` path is a file. -/
theorem C9_precheck_error_witness :
    lookupFS (packageDirOf cfgEx) fsFilePkgEx = some (.file [0]) ∧
    get_path cfgEx (.ok archiveEmptyEx) fsFilePkgEx =
      (.error (.notADirectory (packageDirOf cfgEx)), fsFilePkgEx) :=
  ⟨by decide, C9_precheck_error cfgEx (.ok archiveEmptyEx) fsFilePkgEx [0] (by decide)⟩

/-- C7: `clear_cache` is a no-op returning unit when the cache root is
absent; when present it deletes the whole cache root tree (nothing under
the root survives); a filesystem error from the removal propagates
unwrapped with no recovery. -/
theorem C7_clear_cache (root : Path) (rmErr : Option Err) (fs : FS) :
    (existsPath root fs = false → clear_cache root rmErr fs = (.ok (), fs)) ∧
    (existsPath root fs = true → rmErr = none →
      clear_cache root rmErr fs = (.ok (), rmtreeFS root fs) ∧
      ∀ p, pfxOf root p = true → lookupFS p (rmtreeFS root fs) = none) ∧
    (∀ e, existsPath root fs = true → rmErr = some e →
      clear_cache root rmErr fs = (.error e, fs)) := by
  refine ⟨?_, ?_, ?_⟩
  · intro h
    unfold clear_cache
    rw [h]
    rfl
  · intro h hrm
    subst hrm
    unfold clear_cache
    rw [h]
    exact ⟨rfl, fun p hp => lookup_rmtree_pfx fs hp⟩
  · intro e h hrm
    subst hrm
    unfold clear_cache
    rw [h]
    rfl

/-- Witness for C7 at concrete inputs: absent root (no-op), present root
with successful removal, present root with failing removal. -/
theorem C7_clear_cache_witness :
    (existsPath ["cacheroot"] ([] : FS) = false ∧
      clear_cache ["cacheroot"] none [] = (.ok (), [])) ∧
    (existsPath ["cacheroot"] [(["cacheroot"], Node.dir)] = true ∧
      clear_cache ["cacheroot"] none [(["cacheroot"], Node.dir)] =
        (.ok (), rmtreeFS ["cacheroot"] [(["cacheroot"], Node.dir)])) ∧
    (existsPath ["cacheroot"] [(["cacheroot"], Node.dir)] = true ∧
      clear_cache ["cacheroot"] (some (.osError "permission denied"))
        [(["cacheroot"], Node.dir)] =
        (.error (.osError "permission denied"), [(["cacheroot"], Node.dir)])) :=
  ⟨⟨by decide, (C7_clear_cache ["cacheroot"] none []).1 (by decide)⟩,
   ⟨by decide,
    ((C7_clear_cache ["cacheroot"] none [(["cacheroot"], Node.dir)]).2.1
      (by decide) rfl).1⟩,
   ⟨by decide,
    (C7_clear_cache ["cacheroot"] (some (.osError "permission denied"))
      [(["cacheroot"], Node.dir)]).2.2 (.osError "permission denied") (by decide) rfl⟩⟩

/-- C2: whenever the `try` body of `get_path` (directory creation,
download, verification, extraction, archive deletion) fails with any
exception `e`, `get_path` raises the single wrapped `RuntimeError`
carrying `e` as its cause, and the final filesystem contains nothing at
or below the version directory `assets_dir` — in particular no residual
version directory remains after a hash mismatch, and no partial-success
state is returned. -/
theorem C2_failure_cleanup (cfg : Config) (net : Except Err Archive) (fs : FS)
    (e : Err) (fs1 : FS) (hwf : WF fs) (hfp : fastCheck cfg fs = none)
    (hbody : getPathBody cfg net fs = (.error e, fs1)) :
    ∃ fs', get_path cfg net fs = (.error (.runtimeError e), fs') ∧
      ∀ p, pfxOf (assetsDirOf cfg) p = true → lookupFS p fs' = none := by
  have hb1 : (getPathBody cfg net fs).1 = .error e := by rw [hbody]
  have hb2 : (getPathBody cfg net fs).2 = fs1 := by rw [hbody]
  unfold get_path
  rw [hfp]
  dsimp only
  rw [hb1]
  refine ⟨_, rfl, ?_⟩
  intro p hp
  rw [hb2]
  by_cases hex : existsPath (assetsDirOf cfg) fs1 = true
  · rw [if_pos hex]
    exact lookup_rmtree_pfx fs1 hp
  · rw [if_neg hex]
    rcases body_error_state hbody with rfl | h2
    · have hnone : lookupFS (assetsDirOf cfg) fs1 = none := by
        cases hl : lookupFS (assetsDirOf cfg) fs1
        · rfl
        · exact absurd (by simp [existsPath, hl]) hex
      by_cases hpa : assetsDirOf cfg = p
      · rw [← hpa]; exact hnone
      · exact wf_no_orphans hwf hnone hp hpa (assetsDirOf_ne_nil cfg)
    · exact absurd h2 hex

/-- Witness for C2 at a concrete input: a network failure on an empty
filesystem is re-raised wrapped, and nothing under the version
directory survives. -/
theorem C2_failure_cleanup_witness :
    WF ([] : FS) ∧ fastCheck cfgEx [] = none ∧
    getPathBody cfgEx (.error (.network "connection refused")) [] =
      (.error (.network "connection refused"), addDirs (initsOf (assetsDirOf cfgEx)) []) ∧
    ∃ fs', get_path cfgEx (.error (.network "connection refused")) [] =
      (.error (.runtimeError (.network "connection refused")), fs') ∧
      ∀ p, pfxOf (assetsDirOf cfgEx) p = true → lookupFS p fs' = none :=
  ⟨by decide, by decide, by decide,
    C2_failure_cleanup cfgEx (.error (.network "connection refused")) []
      (.network "connection refused") (addDirs (initsOf (assetsDirOf cfgEx)) [])
      (by decide) (by decide) (by decide)⟩

/-- C3 (corrected): when the downloaded archive's digest differs from
the pinned value, `get_path` fails with the wrapped `ValueError` whose
message names the archive file — the same message for every mismatching
archive, carrying neither the computed nor the expected digest. -/
theorem C3_mismatch_error (cfg : Config) (fs : FS) (a : Archive)
    (hfp : fastCheck cfg fs = none)
    (hmk : ∃ fs1, mkdirParents (assetsDirOf cfg) fs = .ok fs1)
    (hhash : sha1Hex a.bytes ≠ EXPECTED_SHA1) :
    ∃ fs', get_path cfg (.ok a) fs =
      (.error (.runtimeError (.valueError
        ("Hash verification failed for " ++ pathToString (tgzFileOf cfg)))), fs') := by
  obtain ⟨fs1, hmk⟩ := hmk
  have hv : _verify_file_hash a.bytes EXPECTED_SHA1 = false := by
    unfold _verify_file_hash
    rw [readChunks_foldl]
    exact beq_eq_false_iff_ne.2 hhash
  have hbody : getPathBody cfg (.ok a) fs =
      (.error (.valueError ("Hash verification failed for " ++
        pathToString (tgzFileOf cfg))), insertFS (tgzFileOf cfg) (.file a.bytes) fs1) := by
    unfold getPathBody
    rw [hmk]
    dsimp only
    rw [hv]
    rfl
  have hb1 : (getPathBody cfg (.ok a) fs).1 = .error (.valueError
      ("Hash verification failed for " ++ pathToString (tgzFileOf cfg))) := by rw [hbody]
  unfold get_path
  rw [hfp]
  dsimp only
  rw [hb1]
  exact ⟨_, rfl⟩

set_option maxRecDepth 200000 in
/-- Witness for C3 (corrected) at a concrete input: the empty archive
mismatches and produces exactly the path-only message. -/
theorem C3_mismatch_error_witness :
    fastCheck cfgEx [] = none ∧
    (∃ fs1, mkdirParents (assetsDirOf cfgEx) [] = .ok fs1) ∧
    sha1Hex archiveEmptyEx.bytes ≠ EXPECTED_SHA1 ∧
    ∃ fs', get_path cfgEx (.ok archiveEmptyEx) [] =
      (.error (.runtimeError (.valueError
        ("Hash verification failed for " ++ pathToString (tgzFileOf cfgEx)))), fs') :=
  ⟨by decide, ⟨_, rfl⟩, by decide,
    C3_mismatch_error cfgEx [] archiveEmptyEx (by decide) ⟨_, rfl⟩ (by decide)⟩

/-- C8 (corrected): the cache root is only computed (located) from the
platform conventions, but it is not merely located: once the pre-`try`
check falls through and the version directory is created,
`mkdir(parents=True)` has created the cache root as well when it was
absent, and it still exists when `get_path` returns — whether the call
succeeds or fails. -/
theorem C8_cache_root_created (cfg : Config) (net : Except Err Archive) (fs : FS)
    (fsm : FS) (hroot : cfg.cacheRoot ≠ [])
    (hfp : fastCheck cfg fs = none)
    (hmk : mkdirParents (assetsDirOf cfg) fs = .ok fsm) :
    existsPath cfg.cacheRoot ((get_path cfg net fs).2) = true := by
  have hcr : pfxOf (assetsDirOf cfg) cfg.cacheRoot = false :=
    pfxOf_of_longer (by simp [assetsDirOf])
  have hcr1 : existsPath cfg.cacheRoot fsm = true := by
    rw [mkdir_ok_eq hmk]
    refine exists_addDirs_mem _ fs (mem_initsOf.2 ?_) hroot
    unfold assetsDirOf
    exact pfxOf_append _ _
  have hbody : existsPath cfg.cacheRoot (getPathBody cfg net fs).2 = true :=
    body_state_exists hcr hmk hcr1
  unfold get_path
  rw [hfp]
  dsimp only
  cases hb : (getPathBody cfg net fs).1 with
  | ok p =>
    exact hbody
  | error e =>
    dsimp only
    by_cases hex : existsPath (assetsDirOf cfg) (getPathBody cfg net fs).2 = true
    · rw [if_pos hex]
      unfold existsPath
      rw [lookup_rmtree_not _ hcr]
      exact hbody
    · rw [if_neg hex]
      exact hbody

/-- Witness for C8 (corrected) at a concrete input: starting from an
empty filesystem, after a failed call the cache root exists. -/
theorem C8_cache_root_created_witness :
    cfgEx.cacheRoot ≠ [] ∧ fastCheck cfgEx [] = none ∧
    mkdirParents (assetsDirOf cfgEx) [] =
      .ok (addDirs (initsOf (assetsDirOf cfgEx)) []) ∧
    existsPath cfgEx.cacheRoot ((get_path cfgEx (.error (.network "down")) []).2) = true :=
  ⟨by decide, by decide, by decide,
    C8_cache_root_created cfgEx (.error (.network "down")) []
      (addDirs (initsOf (assetsDirOf cfgEx)) []) (by decide) (by decide) (by decide)⟩

/-- C8 counterexample: the claim says the cache root directory is never
created by this system's operations; starting from a filesystem with no
cache root, a single (failed) `get_path` call leaves the cache root
directory existing — `mkdir(parents=True)` created it. -/
theorem C8_counterexample :
    lookupFS cfgEx.cacheRoot ([] : FS) = none ∧
    (get_path cfgEx (.error (.network "down")) []).2 = [(["cacheroot"], Node.dir)] ∧
    existsPath cfgEx.cacheRoot ((get_path cfgEx (.error (.network "down")) []).2) = true :=
  ⟨by decide, by decide, by decide⟩

/-- C6: every successful `get_path` call returns the `package` path —
whose final segment is `"package"` — and at return time that path
exists and is a directory.  On the fast path this holds because the
cache check demands an existing non-empty directory; on the download
path it holds because the pinned archive's members are rooted at a
top-level `package` directory (hypothesis `hmem`, true of the npm
tarball fixed by the pinned digest). -/
theorem C6_return_contract (cfg : Config) (net : Except Err Archive) (fs : FS)
    (p : Path) (fs' : FS)
    (hclean : cleanSegs cfg.cacheRoot)
    (hmem : ∀ a, net = .ok a → a.members ≠ [] ∧ ∀ m ∈ a.members, rootedMember m)
    (h : get_path cfg net fs = (.ok p, fs')) :
    p = packageDirOf cfg ∧ p.getLast? = some "package" ∧
      lookupFS (packageDirOf cfg) fs' = some .dir := by
  have hmain : p = packageDirOf cfg ∧ lookupFS (packageDirOf cfg) fs' = some .dir := by
    unfold get_path at h
    cases hfc : fastCheck cfg fs with
    | some r =>
      rw [hfc] at h
      injection h with h1 h2
      subst h2
      unfold fastCheck at hfc
      cases hl : lookupFS (packageDirOf cfg) fs with
      | none => rw [hl] at hfc; cases hfc
      | some nd =>
        rw [hl] at hfc
        cases nd with
        | dir =>
          by_cases hne : nonEmptyDir (packageDirOf cfg) fs = true
          · rw [if_pos hne] at hfc
            injection hfc with hfc
            rw [← hfc] at h1
            injection h1 with h1
            exact ⟨h1.symm, rfl⟩
          · rw [if_neg hne] at hfc; cases hfc
        | file c =>
          injection hfc with hfc
          rw [← hfc] at h1
          cases h1
        | special =>
          injection hfc with hfc
          rw [← hfc] at h1
          cases h1
    | none =>
      rw [hfc] at h
      dsimp only at h
      rcases hbody : getPathBody cfg net fs with ⟨bres, bfs⟩
      have hb1 : (getPathBody cfg net fs).1 = bres := by rw [hbody]
      have hb2 : (getPathBody cfg net fs).2 = bfs := by rw [hbody]
      cases bres with
      | error e => rw [hb1] at h; injection h with h1 h2; cases h1
      | ok q =>
        rw [hb1] at h
        injection h with h1 h2
        injection h1 with h1
        subst h1
        rw [hb2] at h2
        subst h2
        obtain ⟨hq, a, fsm, hnet, hmk, exr, hex, hfs2⟩ := body_ok_cases hbody
        subst hq
        refine ⟨rfl, ?_⟩
        subst hfs2
        rw [lookup_removeFS, if_neg (tgzFile_ne_packageDir cfg)]
        obtain ⟨hms_ne, hms⟩ := hmem a hnet
        have hdest : cleanSegs (assetsDirOf cfg) := by
          unfold assetsDirOf
          exact cleanSegs_append hclean (by decide)
        unfold _extract_tgz at hex
        rw [tgzFile_dropLast] at hex
        have hdich : lookupFS (packageDirOf cfg)
            (insertFS (tgzFileOf cfg) (.file a.bytes) fsm) = none ∨
            lookupFS (packageDirOf cfg)
              (insertFS (tgzFileOf cfg) (.file a.bytes) fsm) = some .dir := by
          rw [lookup_insertFS, if_neg (tgzFile_ne_packageDir cfg)]
          have hnp : pfxOf (packageDirOf cfg) (assetsDirOf cfg) = false :=
            pfxOf_of_longer (by simp [assetsDirOf, packageDirOf])
          rw [mkdir_lookup_not_pfx hmk hnp]
          unfold fastCheck at hfc
          cases hl : lookupFS (packageDirOf cfg) fs with
          | none => exact Or.inl rfl
          | some nd =>
            rw [hl] at hfc
            cases nd with
            | dir => exact Or.inr rfl
            | file c => cases hfc
            | special => cases hfc
        exact extract_loop_pkg hdest a.members _ exr hms hdich hex hms_ne
  refine ⟨hmain.1, ?_, hmain.2⟩
  rw [hmain.1]
  unfold packageDirOf
  simp

/-- Witness for C6 at a concrete input: the fast path returns the
existing `package` directory even when the network is down. -/
theorem C6_return_contract_witness :
    cleanSegs cfgEx.cacheRoot ∧
    get_path cfgEx (.error (.network "down")) fsFastEx =
      (.ok (packageDirOf cfgEx), fsFastEx) ∧
    (packageDirOf cfgEx = packageDirOf cfgEx ∧
      (packageDirOf cfgEx).getLast? = some "package" ∧
      lookupFS (packageDirOf cfgEx) fsFastEx = some .dir) :=
  ⟨by decide, by decide,
    C6_return_contract cfgEx (.error (.network "down")) fsFastEx
      (packageDirOf cfgEx) fsFastEx (by decide)
      (fun a ha => nomatch ha) (by decide)⟩

/-- C1 (corrected): when the backend supports the `filter` parameter,
`_extract_tgz` applies the `data` policy to every member — a successful
extraction means every member passed the filter (no absolute paths, no
traversal outside the destination, no special files), and no path
outside the destination directory is ever created or modified. -/
theorem C1_filter_policy (tgz : Path) (ms : List TarMember) (fs : FS)
    (res : Option Err) (fs' : FS)
    (hanc : ∀ q ∈ initsOf tgz.dropLast, q ≠ [] → existsPath q fs = true)
    (h : _extract_tgz true ms tgz fs = (res, fs')) :
    (res = none → ∀ m ∈ ms, dataFilterOk tgz.dropLast m = true) ∧
    (∀ p, pfxOf tgz.dropLast p = false → lookupFS p fs' = lookupFS p fs) := by
  unfold _extract_tgz at h
  constructor
  · rintro rfl
    exact extractLoop_all_ok ms fs fs' h
  · intro p hp
    exact extractLoop_frame hp ms fs res fs' hanc h

/-- Witness for C1 (corrected): a well-behaved member extracts under the
filter, and nothing outside the destination changed. -/
theorem C1_filter_policy_witness :
    (∀ q ∈ initsOf (["r", "d", "a.tgz"] : Path).dropLast, q ≠ [] →
      existsPath q fsDestEx = true) ∧
    _extract_tgz true [memberGood] ["r", "d", "a.tgz"] fsDestEx = (none, fsGoodEx) ∧
    ((none = (none : Option Err) → ∀ m ∈ [memberGood],
        dataFilterOk (["r", "d", "a.tgz"] : Path).dropLast m = true) ∧
      (∀ p, pfxOf (["r", "d", "a.tgz"] : Path).dropLast p = false →
        lookupFS p fsGoodEx = lookupFS p fsDestEx)) :=
  ⟨by decide, by decide,
    C1_filter_policy ["r", "d", "a.tgz"] [memberGood] fsDestEx none fsGoodEx
      (by decide) (by decide)⟩

/-- C1 counterexample: the claim says that without a built-in
safe-filter option equivalent validation is applied to each member; on
the no-filter backend (`supports_filter = false`, Python < 3.12) a
`../evil` member is not rejected: extraction succeeds and creates a file
outside the destination directory. -/
theorem C1_counterexample :
    _extract_tgz false [memberEvil] ["r", "d", "a.tgz"] fsDestEx =
      (none, [(["r", "evil"], .file [7]), (["r"], .dir), (["r", "d"], .dir)]) ∧
    pfxOf (["r", "d", "a.tgz"] : Path).dropLast ["r", "evil"] = false ∧
    lookupFS ["r", "evil"] fsDestEx = none ∧
    memberEvil.segs = ["..", "evil"] :=
  ⟨by decide, by decide, by decide, by decide⟩

set_option maxRecDepth 200000 in
/-- C3 counterexample: the claim says the integrity error carries both
the computed and the expected hash values; at a concrete mismatching
input the raised error's message (inner and fully rendered) contains
neither the computed digest of the fetched file nor the pinned expected
digest — it only names the file. -/
theorem C3_counterexample :
    (get_path cfgEx (.ok archiveEmptyEx) []).1 =
      .error (.runtimeError (.valueError mismatchMsgEx)) ∧
    sha1Hex archiveEmptyEx.bytes = "da39a3ee5e6b4b0d3255bfef95601890afd80709" ∧
    occursIn (sha1Hex archiveEmptyEx.bytes).data mismatchMsgEx.data = false ∧
    occursIn EXPECTED_SHA1.data mismatchMsgEx.data = false ∧
    occursIn EXPECTED_SHA1.data
      (errStr (.runtimeError (.valueError mismatchMsgEx))).data = false ∧
    occursIn (sha1Hex archiveEmptyEx.bytes).data
      (errStr (.runtimeError (.valueError mismatchMsgEx))).data = false := by
  refine ⟨by decide, by decide, by decide, by decide, by decide, by decide⟩

end MonacoAssets
